import Mathlib

/-!
# Verification of the faceai-v2 inference-to-decision pipeline

Shallow embedding of the core pipeline of the `faceai-v2` repository:

* `src/src/OnnxImageClassifier.tsx` — 39-attribute classifier (groups,
  display mapping, `classifyImage`, `processAllImages`,
  `getDominantAttributes`, `getFilteredAttributes`);
* `src/src/OnnxImageClassifier_cpu.tsx` — 18-attribute variant, whose
  `getDominantAttributes` is textually identical and differs only in the
  `CONFIG` data (groups / display mapping);
* `src/unnamed/part_001` — the dominant-attributes JSON module
  (`getDominantInGroup`, `extractDominantAttributes`, `hasTrait`,
  `hasTraitByQuestion`, `QUESTION_TO_TRAIT_MAPPING`).

JavaScript `number` probabilities/logits are embedded as `ℚ` where only
ordering and field shuffling matter, and as `ℝ` for the sigmoid analysis.
JavaScript string truthiness (`undefined` and `""` are falsy) is modelled
explicitly by `truthy`/`jsOr`/`jsOrD`.
-/

namespace FaceAI

/-- JS string truthiness: `undefined` (here `none`) and the empty string are
falsy, every other string is truthy. -/
def truthy : Option String → Bool
  | none => false
  | some s => s != ""

/-- JS `a || b` on `string | undefined` values: `b` when `a` is falsy. -/
def jsOr (a b : Option String) : Option String :=
  if truthy a then a else b

/-- JS `a || d` where the fallback `d` is a plain (truthy) string, so the
result is a plain string. -/
def jsOrD (a : Option String) (d : String) : String :=
  match a with
  | none => d
  | some s => if s = "" then d else s

/-- The `Attribute` record of `OnnxImageClassifier.tsx` (lines 548–554):
`{name: string | undefined, probability, rawValue, index, displayName?}`.
`probability` and `rawValue` are embedded as `ℚ`. -/
structure Attribute where
  name : Option String
  probability : ℚ
  rawValue : ℚ
  index : ℕ
  displayName : Option String
deriving DecidableEq, Repr

/-- One entry of `CONFIG.attributeGroups`: `{name, indices}`. -/
structure Group where
  name : String
  indices : List ℕ
deriving DecidableEq, Repr

/-- `CONFIG.attributeGroups` of `OnnxImageClassifier.tsx` (lines 90–99).
`src/unnamed/part_001` (lines 7–16) declares the identical list. -/
def attributeGroups : List Group :=
  [⟨"Gender", [0, 1, 2, 3]⟩,
   ⟨"Hair Color", [4, 5, 6, 7, 8, 9, 10]⟩,
   ⟨"Hair Length", [11, 12, 13]⟩,
   ⟨"Hair Type", [14, 15, 16, 17, 18]⟩,
   ⟨"Facial Hair", [19, 20, 21]⟩,
   ⟨"Eye Color", [22, 23, 24, 25, 26, 27]⟩,
   ⟨"Hat", [28, 29, 30, 31, 32, 33]⟩,
   ⟨"Eyeglasses", [34, 35, 36, 37, 38]⟩]

/-- `CONFIG.displayMapping` of `OnnxImageClassifier.tsx` (lines 106–161) as an
association list; `src/unnamed/part_001` (lines 17–32) declares the identical
mapping. -/
def displayMappingList : List (ℕ × String) :=
  [(0, "Uomo"), (1, "Donna"), (2, "Uomo"), (3, "Donna"),
   (4, "Capelli biondi"), (5, "Capelli Marroni"), (6, "Capelli neri"),
   (7, "Capelli rossi"), (8, "Capelli grigi"), (9, "Capelli bianchi"),
   (10, "No Capelli"),
   (11, "No capelli"), (12, "Capelli corti"), (13, "Capelli lunghi"),
   (14, "No capelli"), (15, "Capelli lisci"), (16, "Capelli ricci"),
   (17, "Capelli mossi"), (18, "Capelli afro"),
   (19, "Senza Barba"), (20, "Con Barba"), (21, "Con Barba"),
   (22, "Occhi marroni"), (23, "Occhi azzurri"), (24, "Occhi verdi"),
   (25, "Occhi verdi"), (26, "Occhi marroni"), (27, "Occhi verdi"),
   (28, "Senza Cappello"), (29, "Senza Cappello"), (30, "Con Cappello"),
   (31, "Senza Cappello"), (32, "Con Cappello"), (33, "Con Cappello"),
   (34, "Senza Occhiali"), (35, "Senza Occhiali"), (36, "Senza Occhiali"),
   (37, "Senza Occhiali"), (38, "Con Occhiali")]

/-- `CONFIG.displayMapping[i]`, `undefined` (`none`) outside the table. -/
def displayMapping (i : ℕ) : Option String :=
  displayMappingList.lookup i

/-- `CONFIG.attributeGroups` of `OnnxImageClassifier_cpu.tsx` (lines 69–75):
indices 0 (smile), 16 (facial hair) and 17 (eyeglasses) belong to no group. -/
def cpuAttributeGroups : List Group :=
  [⟨"Gender", [1, 2]⟩,
   ⟨"Hair Color", [3, 4, 5, 6]⟩,
   ⟨"Hair Length", [7, 8]⟩,
   ⟨"Ethnicity", [9, 10, 11, 12]⟩,
   ⟨"Eye Color", [13, 14, 15]⟩]

/-- `CONFIG.displayMapping` of `OnnxImageClassifier_cpu.tsx` (lines 82–101). -/
def cpuDisplayMappingList : List (ℕ × String) :=
  [(0, "Sorriso"), (1, "Uomo"), (2, "Donna"),
   (3, "Capelli Marroni"), (4, "Capelli Neri"), (5, "Capelli Biondi"),
   (6, "Capelli Grigi"), (7, "Capelli Lunghi"), (8, "Capelli Corti"),
   (9, "Asiatico"), (10, "Nero"), (11, "Latino"), (12, "Bianco"),
   (13, "Occhi Azzurri"), (14, "Occhi Marroni"), (15, "Occhi Verdi"),
   (16, "Con Barba"), (17, "Con Occhiali")]

/-- `CONFIG.displayMapping[i]` of the cpu variant. -/
def cpuDisplayMapping (i : ℕ) : Option String :=
  cpuDisplayMappingList.lookup i

/-- `attributes.find(a => a.index === idx)` — first observation carrying the
requested index. -/
def findByIndex (attrs : List Attribute) (idx : ℕ) : Option Attribute :=
  attrs.find? (fun a => a.index == idx)

/-- The inner scan of `getDominantAttributes` (`OnnxImageClassifier.tsx`
lines 581–591, identical in the cpu variant lines 500–510 and in
`getDominantInGroup` of `part_001` lines 71–80): walk the group's declared
indices in order, keeping the observation whose probability is strictly
greater than the running maximum (`attr.probability > maxProb`), starting
from `maxProb = -1`, `maxAttr = undefined`. -/
def groupScan (attrs : List Attribute) :
    List ℕ → ℚ → Option Attribute → Option Attribute
  | [], _, maxAttr => maxAttr
  | idx :: rest, maxProb, maxAttr =>
    match findByIndex attrs idx with
    | some attr =>
      if maxProb < attr.probability then
        groupScan attrs rest attr.probability (some attr)
      else
        groupScan attrs rest maxProb maxAttr
    | none => groupScan attrs rest maxProb maxAttr

/-- Construction of the pushed group winner (`OnnxImageClassifier.tsx`
lines 594–615): a fresh record with `displayName` set to
`CONFIG.displayMapping[index] || name` when that is truthy, and with no
`displayName` field otherwise. -/
def mkWinner (mapping : ℕ → Option String) (a : Attribute) : Attribute :=
  let d := jsOr (mapping a.index) a.name
  if truthy d then
    ⟨a.name, a.probability, a.rawValue, a.index, d⟩
  else
    ⟨a.name, a.probability, a.rawValue, a.index, none⟩

/-- Push of an ungrouped observation (`OnnxImageClassifier.tsx`
lines 625–637): `{...attr, displayName}` when the resolved display text is
truthy, the unchanged record otherwise. -/
def mkUngrouped (mapping : ℕ → Option String) (a : Attribute) : Attribute :=
  let d := jsOr (mapping a.index) a.name
  if truthy d then { a with displayName := d } else a

/-- `getDominantAttributes` (`OnnxImageClassifier.tsx` lines 575–641; the cpu
variant, lines 494–560, is the same code over `cpuAttributeGroups` /
`cpuDisplayMapping`, so the function is parametrised by the configuration).
The `usedIndices` JS `Set` is modelled by a list queried only through
`contains`. -/
def getDominantAttributes (groups : List Group) (mapping : ℕ → Option String)
    (attributes : List Attribute) : List Attribute :=
  let r := groups.foldl (fun acc group =>
    match groupScan attributes group.indices (-1) none with
    | some maxAttr => (acc.1 ++ [mkWinner mapping maxAttr], acc.2 ++ group.indices)
    | none => acc) ([], [])
  r.1 ++ (attributes.filter (fun a => !(r.2.contains a.index))).map (mkUngrouped mapping)

/-! ## Basic facts about `findByIndex` and `groupScan` -/

lemma findByIndex_some {attrs : List Attribute} {idx : ℕ} {a : Attribute}
    (h : findByIndex attrs idx = some a) : a ∈ attrs ∧ a.index = idx := by
  refine ⟨List.mem_of_find?_eq_some h, ?_⟩
  simpa using List.find?_some h

lemma findByIndex_self {attrs : List Attribute}
    (hnd : (attrs.map Attribute.index).Nodup) {a : Attribute} (ha : a ∈ attrs) :
    findByIndex attrs a.index = some a := by
  induction attrs with
  | nil => cases ha
  | cons b rest ih =>
    rcases List.mem_cons.mp ha with rfl | ha'
    · simp [findByIndex]
    · have hmap : (b.index ∉ rest.map Attribute.index) ∧
          (rest.map Attribute.index).Nodup := by
        simpa using List.nodup_cons.mp hnd
      have hb : (b.index == a.index) = false := by
        refine beq_eq_false_iff_ne.mpr ?_
        intro he
        exact hmap.1 (he ▸ List.mem_map_of_mem Attribute.index ha')
      simp only [findByIndex, List.find?, hb]
      exact ih hmap.2 ha'

/-- A scan result is either the incoming holder or a member present in the
input whose index is declared in the scanned list. -/
lemma groupScan_mem {attrs : List Attribute} :
    ∀ {L : List ℕ} {maxProb : ℚ} {best : Option Attribute} {w : Attribute},
      groupScan attrs L maxProb best = some w →
      best = some w ∨ (w ∈ attrs ∧ w.index ∈ L) := by
  intro L
  induction L with
  | nil => intro maxProb best w h; exact Or.inl h
  | cons idx rest ih =>
    intro maxProb best w h
    simp only [groupScan] at h
    cases hf : findByIndex attrs idx with
    | none =>
      simp only [hf] at h
      rcases ih h with h' | h'
      · exact Or.inl h'
      · exact Or.inr ⟨h'.1, List.mem_cons_of_mem _ h'.2⟩
    | some a =>
      simp only [hf] at h
      by_cases hlt : maxProb < a.probability
      · rw [if_pos hlt] at h
        rcases ih h with h' | h'
        · obtain ⟨ha, hidx⟩ := findByIndex_some hf
          obtain rfl : a = w := by injection h'
          exact Or.inr ⟨ha, by simp [hidx]⟩
        · exact Or.inr ⟨h'.1, List.mem_cons_of_mem _ h'.2⟩
      · rw [if_neg hlt] at h
        rcases ih h with h' | h'
        · exact Or.inl h'
        · exact Or.inr ⟨h'.1, List.mem_cons_of_mem _ h'.2⟩

/-- Once a holder is installed it is never dropped, only replaced. -/
lemma groupScan_some_of_best {attrs : List Attribute} :
    ∀ (L : List ℕ) (maxProb : ℚ) (b : Attribute),
      ∃ w, groupScan attrs L maxProb (some b) = some w := by
  intro L
  induction L with
  | nil => intro maxProb b; exact ⟨b, rfl⟩
  | cons idx rest ih =>
    intro maxProb b
    simp only [groupScan]
    cases hf : findByIndex attrs idx with
    | none => exact ih maxProb b
    | some a =>
      dsimp only
      by_cases hlt : maxProb < a.probability
      · rw [if_pos hlt]; exact ih _ a
      · rw [if_neg hlt]; exact ih maxProb b

/-- If some declared index carries an observation beating the running
maximum, the scan returns a winner. -/
lemma groupScan_isSome {attrs : List Attribute} :
    ∀ {L : List ℕ} {maxProb : ℚ} {best : Option Attribute},
      (∃ idx ∈ L, ∃ a, findByIndex attrs idx = some a ∧ maxProb < a.probability) →
      ∃ w, groupScan attrs L maxProb best = some w := by
  intro L
  induction L with
  | nil =>
    rintro maxProb best ⟨idx, h, -⟩
    cases h
  | cons idx rest ih =>
    rintro maxProb best ⟨j, hj, a, hfa, hlt⟩
    simp only [groupScan]
    cases hf : findByIndex attrs idx with
    | none =>
      rcases List.mem_cons.mp hj with rfl | hj'
      · simp only [hf] at hfa
        exact Option.noConfusion hfa
      · exact ih ⟨j, hj', a, hfa, hlt⟩
    | some b =>
      dsimp only
      by_cases hltb : maxProb < b.probability
      · rw [if_pos hltb]; exact groupScan_some_of_best rest _ b
      · rw [if_neg hltb]
        rcases List.mem_cons.mp hj with rfl | hj'
        · simp only [hf] at hfa
          obtain rfl : b = a := by injection hfa
          exact absurd hlt hltb
        · exact ih ⟨j, hj', a, hfa, hlt⟩

/-- The winner's probability dominates the running maximum and every
observation found at a scanned index. -/
lemma groupScan_max {attrs : List Attribute} :
    ∀ {L : List ℕ} {maxProb : ℚ} {best : Option Attribute} {w : Attribute},
      groupScan attrs L maxProb best = some w →
      (∀ b, best = some b → b.probability = maxProb) →
      maxProb ≤ w.probability ∧
        ∀ idx ∈ L, ∀ a, findByIndex attrs idx = some a →
          a.probability ≤ w.probability := by
  intro L
  induction L with
  | nil =>
    intro maxProb best w h hb
    refine ⟨le_of_eq (hb w h).symm, ?_⟩
    intro idx hidx
    cases hidx
  | cons idx rest ih =>
    intro maxProb best w h hb
    simp only [groupScan] at h
    cases hf : findByIndex attrs idx with
    | none =>
      simp only [hf] at h
      obtain ⟨h1, h2⟩ := ih h hb
      refine ⟨h1, ?_⟩
      intro j hj a hfa
      rcases List.mem_cons.mp hj with rfl | hj'
      · simp only [hf] at hfa
        exact Option.noConfusion hfa
      · exact h2 j hj' a hfa
    | some b =>
      simp only [hf] at h
      by_cases hlt : maxProb < b.probability
      · rw [if_pos hlt] at h
        obtain ⟨h1, h2⟩ := ih h (by
          rintro c hc
          obtain rfl : b = c := by injection hc
          rfl)
        refine ⟨le_trans (le_of_lt hlt) h1, ?_⟩
        intro j hj a hfa
        rcases List.mem_cons.mp hj with rfl | hj'
        · simp only [hf] at hfa
          obtain rfl : b = a := by injection hfa
          exact h1
        · exact h2 j hj' a hfa
      · rw [if_neg hlt] at h
        obtain ⟨h1, h2⟩ := ih h hb
        refine ⟨h1, ?_⟩
        intro j hj a hfa
        rcases List.mem_cons.mp hj with rfl | hj'
        · simp only [hf] at hfa
          obtain rfl : b = a := by injection hfa
          exact le_trans (le_of_not_lt hlt) h1
        · exact h2 j hj' a hfa

/-- Structure of a scan winner that replaced the incoming holder: the
declared list splits at the winner's index, every declared index strictly
before it carries an observation of strictly smaller probability, and the
winner strictly beat the incoming running maximum.  This is the
``first index wins ties'' discipline: an equal-probability member can only
sit at or after the winner's declared position. -/
lemma groupScan_first {attrs : List Attribute} :
    ∀ {L : List ℕ} {maxProb : ℚ} {best : Option Attribute} {w : Attribute},
      groupScan attrs L maxProb best = some w →
      best = some w ∨
        ∃ L₁ L₂, L = L₁ ++ w.index :: L₂ ∧
          findByIndex attrs w.index = some w ∧
          maxProb < w.probability ∧
          ∀ idx ∈ L₁, ∀ a, findByIndex attrs idx = some a →
            a.probability < w.probability := by
  intro L
  induction L with
  | nil => intro maxProb best w h; exact Or.inl h
  | cons idx rest ih =>
    intro maxProb best w h
    simp only [groupScan] at h
    cases hf : findByIndex attrs idx with
    | none =>
      simp only [hf] at h
      rcases ih h with h' | ⟨L₁, L₂, hdec, hfw, hmp, hall⟩
      · exact Or.inl h'
      · refine Or.inr ⟨idx :: L₁, L₂, by rw [hdec]; rfl, hfw, hmp, ?_⟩
        intro j hj a hfa
        rcases List.mem_cons.mp hj with rfl | hj'
        · simp only [hf] at hfa
          exact Option.noConfusion hfa
        · exact hall j hj' a hfa
    | some b =>
      simp only [hf] at h
      by_cases hlt : maxProb < b.probability
      · rw [if_pos hlt] at h
        rcases ih h with h' | ⟨L₁, L₂, hdec, hfw, hmp, hall⟩
        · obtain rfl : b = w := by injection h'
          obtain ⟨-, hidx⟩ := findByIndex_some hf
          refine Or.inr ⟨[], rest, by simp [hidx], by rw [hidx]; exact hf, hlt, ?_⟩
          intro j hj
          cases hj
        · refine Or.inr ⟨idx :: L₁, L₂, by rw [hdec]; rfl, hfw,
            lt_trans hlt hmp, ?_⟩
          intro j hj a hfa
          rcases List.mem_cons.mp hj with rfl | hj'
          · simp only [hf] at hfa
            obtain rfl : b = a := by injection hfa
            exact hmp
          · exact hall j hj' a hfa
      · rw [if_neg hlt] at h
        rcases ih h with h' | ⟨L₁, L₂, hdec, hfw, hmp, hall⟩
        · exact Or.inl h'
        · refine Or.inr ⟨idx :: L₁, L₂, by rw [hdec]; rfl, hfw, hmp, ?_⟩
          intro j hj a hfa
          rcases List.mem_cons.mp hj with rfl | hj'
          · simp only [hf] at hfa
            obtain rfl : b = a := by injection hfa
            exact lt_of_le_of_lt (le_of_not_lt hlt) hmp
          · exact hall j hj' a hfa

/-! ## Structure of `getDominantAttributes` -/

/-- The group-winners part of `getDominantAttributes`: one entry per group
whose scan produced a winner, in group declaration order. -/
def winnersList (groups : List Group) (mapping : ℕ → Option String)
    (attrs : List Attribute) : List Attribute :=
  groups.filterMap
    (fun g => (groupScan attrs g.indices (-1) none).map (mkWinner mapping))

/-- Contents of the `usedIndices` set after the group loop: the declared
indices of every group whose scan produced a winner. -/
def usedOf (groups : List Group) (attrs : List Attribute) : List ℕ :=
  (groups.filter (fun g => (groupScan attrs g.indices (-1) none).isSome)).flatMap
    Group.indices

lemma getDominant_fold (groups : List Group) (mapping : ℕ → Option String)
    (attrs : List Attribute) :
    ∀ acc : List Attribute × List ℕ,
      groups.foldl (fun acc group =>
        match groupScan attrs group.indices (-1) none with
        | some maxAttr =>
            (acc.1 ++ [mkWinner mapping maxAttr], acc.2 ++ group.indices)
        | none => acc) acc
      = (acc.1 ++ winnersList groups mapping attrs,
         acc.2 ++ usedOf groups attrs) := by
  induction groups with
  | nil => intro acc; simp [winnersList, usedOf]
  | cons g gs ih =>
    intro acc
    rw [List.foldl_cons]
    cases hg : groupScan attrs g.indices (-1) none with
    | none =>
      simp only [hg]
      rw [ih]
      simp [winnersList, usedOf, List.filterMap_cons, List.filter_cons, hg]
    | some w =>
      simp only [hg]
      rw [ih]
      simp [winnersList, usedOf, List.filterMap_cons, List.filter_cons, hg]

lemma getDominantAttributes_eq (groups : List Group)
    (mapping : ℕ → Option String) (attrs : List Attribute) :
    getDominantAttributes groups mapping attrs =
      winnersList groups mapping attrs ++
        (attrs.filter
          (fun a => !((usedOf groups attrs).contains a.index))).map
          (mkUngrouped mapping) := by
  unfold getDominantAttributes
  rw [getDominant_fold]
  simp

lemma mem_usedOf {groups : List Group} {attrs : List Attribute} {x : ℕ} :
    x ∈ usedOf groups attrs ↔
      ∃ g ∈ groups,
        (groupScan attrs g.indices (-1) none).isSome = true ∧ x ∈ g.indices := by
  simp only [usedOf, List.mem_flatMap, List.mem_filter]
  constructor
  · rintro ⟨g, ⟨hg, hsome⟩, hx⟩
    exact ⟨g, hg, hsome, hx⟩
  · rintro ⟨g, hg, hsome, hx⟩
    exact ⟨g, ⟨hg, hsome⟩, hx⟩

lemma groupScan_isSome_iff {attrs : List Attribute} {L : List ℕ}
    (hnd : (attrs.map Attribute.index).Nodup)
    (hpos : ∀ a ∈ attrs, 0 ≤ a.probability) :
    (groupScan attrs L (-1) none).isSome = true ↔ ∃ a ∈ attrs, a.index ∈ L := by
  constructor
  · intro h
    obtain ⟨w, hw⟩ := Option.isSome_iff_exists.mp h
    rcases groupScan_mem hw with h' | h'
    · exact Option.noConfusion h'
    · exact ⟨w, h'.1, h'.2⟩
  · rintro ⟨a, ha, haL⟩
    have hex : ∃ w, groupScan attrs L (-1) none = some w :=
      groupScan_isSome ⟨a.index, haL, a, findByIndex_self hnd ha,
        show (-1 : ℚ) < a.probability from
          lt_of_lt_of_le (by norm_num) (hpos a ha)⟩
    obtain ⟨w, hw⟩ := hex
    rw [hw]
    rfl

lemma attributeGroups_indices_nodup : ∀ g ∈ attributeGroups, g.indices.Nodup := by
  decide

/-! ## C1 — per-group winner maximality and first-index tie-breaking -/

/-- **C1.** For an observation sequence with at most one observation per
index and probabilities at least `0` (the data model's
`probability ∈ [0,1]`), and for every declared group with at least one
member present in the input, the dominance resolver selects a winner that
(i) is a present member of the group, (ii) is pushed into the
`getDominantAttributes` output, (iii) has probability at least that of every
present group member, and (iv) in case of equal maximal probabilities sits
at the lowest declared-order position in the group's index list — a later
member with equal probability never replaces the current holder. -/
theorem dominant_winner_max_and_first_tie
    (attrs : List Attribute) (g : Group) (hg : g ∈ attributeGroups)
    (hnd : (attrs.map Attribute.index).Nodup)
    (hpos : ∀ a ∈ attrs, 0 ≤ a.probability)
    (hpres : ∃ a ∈ attrs, a.index ∈ g.indices) :
    ∃ w, groupScan attrs g.indices (-1) none = some w ∧
      w ∈ attrs ∧ w.index ∈ g.indices ∧
      mkWinner displayMapping w ∈
        getDominantAttributes attributeGroups displayMapping attrs ∧
      (∀ a ∈ attrs, a.index ∈ g.indices → a.probability ≤ w.probability) ∧
      (∀ a ∈ attrs, a.index ∈ g.indices → a.probability = w.probability →
        g.indices.indexOf w.index ≤ g.indices.indexOf a.index) := by
  obtain ⟨a₀, ha₀, hLa₀⟩ := hpres
  have hex : ∃ w, groupScan attrs g.indices (-1) none = some w :=
    groupScan_isSome ⟨a₀.index, hLa₀, a₀, findByIndex_self hnd ha₀,
      show (-1 : ℚ) < a₀.probability from
        lt_of_lt_of_le (by norm_num) (hpos a₀ ha₀)⟩
  obtain ⟨w, hw⟩ := hex
  rcases groupScan_mem hw with hcontra | ⟨hwmem, hwL⟩
  · exact absurd hcontra.symm (Option.some_ne_none w)
  refine ⟨w, hw, hwmem, hwL, ?_, ?_, ?_⟩
  · rw [getDominantAttributes_eq]
    refine List.mem_append.mpr (Or.inl ?_)
    refine List.mem_filterMap.mpr ⟨g, hg, ?_⟩
    rw [hw]
    rfl
  · intro a ha haL
    obtain ⟨-, hmax⟩ := groupScan_max hw (by rintro b hb; exact Option.noConfusion hb)
    exact hmax a.index haL a (findByIndex_self hnd ha)
  · intro a ha haL hpe
    rcases groupScan_first hw with hcontra | ⟨L₁, L₂, hdec, -, -, hstr⟩
    · exact absurd hcontra.symm (Option.some_ne_none w)
    have hgnd : g.indices.Nodup := attributeGroups_indices_nodup g hg
    have haL₁ : a.index ∉ L₁ := by
      intro hmem
      have := hstr a.index hmem a (findByIndex_self hnd ha)
      rw [hpe] at this
      exact lt_irrefl _ this
    rw [hdec] at hgnd ⊢
    obtain ⟨-, -, hdisj⟩ := List.nodup_append.mp hgnd
    have hwn1 : w.index ∉ L₁ := fun hmem => hdisj hmem (List.mem_cons_self _ _)
    rw [List.indexOf_append_of_not_mem hwn1,
        List.indexOf_append_of_not_mem haL₁, List.indexOf_cons_self]
    omega

/-- Concrete input for the C1 witness: observations at indices 0 and 1 of
the `Gender` group with probabilities `3/10` and `9/10`. -/
def c1WitnessAttrs : List Attribute :=
  [⟨some "a man", mkRat 3 10, 1, 0, none⟩, ⟨some "a woman", mkRat 9 10, 2, 1, none⟩]

/-- The `Gender` group of `CONFIG.attributeGroups`. -/
def genderGroup : Group := ⟨"Gender", [0, 1, 2, 3]⟩

/-- Witness: the C1 theorem applied at a concrete input, all hypotheses
discharged by evaluation. -/
theorem dominant_winner_max_and_first_tie_witness :
    (genderGroup ∈ attributeGroups ∧
      (c1WitnessAttrs.map Attribute.index).Nodup ∧
      (∀ a ∈ c1WitnessAttrs, 0 ≤ a.probability) ∧
      (∃ a ∈ c1WitnessAttrs, a.index ∈ genderGroup.indices)) ∧
    ∃ w, groupScan c1WitnessAttrs genderGroup.indices (-1) none = some w ∧
      w ∈ c1WitnessAttrs ∧ w.index ∈ genderGroup.indices ∧
      mkWinner displayMapping w ∈
        getDominantAttributes attributeGroups displayMapping c1WitnessAttrs ∧
      (∀ a ∈ c1WitnessAttrs, a.index ∈ genderGroup.indices →
        a.probability ≤ w.probability) ∧
      (∀ a ∈ c1WitnessAttrs, a.index ∈ genderGroup.indices →
        a.probability = w.probability →
        genderGroup.indices.indexOf w.index ≤ genderGroup.indices.indexOf a.index) :=
  ⟨⟨by decide, by decide, by decide, by decide⟩,
    dominant_winner_max_and_first_tie c1WitnessAttrs genderGroup
      (by decide) (by decide) (by decide) (by decide)⟩

/-! ## C3 — full output structure of the resolver (cpu variant) -/

lemma mkWinner_index (m : ℕ → Option String) (a : Attribute) :
    (mkWinner m a).index = a.index := by
  unfold mkWinner
  by_cases h : truthy (jsOr (m a.index) a.name) <;> simp [h]

lemma mkWinner_name (m : ℕ → Option String) (a : Attribute) :
    (mkWinner m a).name = a.name := by
  unfold mkWinner
  by_cases h : truthy (jsOr (m a.index) a.name) <;> simp [h]

lemma mkWinner_probability (m : ℕ → Option String) (a : Attribute) :
    (mkWinner m a).probability = a.probability := by
  unfold mkWinner
  by_cases h : truthy (jsOr (m a.index) a.name) <;> simp [h]

lemma mkUngrouped_index (m : ℕ → Option String) (a : Attribute) :
    (mkUngrouped m a).index = a.index := by
  unfold mkUngrouped
  by_cases h : truthy (jsOr (m a.index) a.name) <;> simp [h]

lemma mkUngrouped_name (m : ℕ → Option String) (a : Attribute) :
    (mkUngrouped m a).name = a.name := by
  unfold mkUngrouped
  by_cases h : truthy (jsOr (m a.index) a.name) <;> simp [h]

lemma mkUngrouped_probability (m : ℕ → Option String) (a : Attribute) :
    (mkUngrouped m a).probability = a.probability := by
  unfold mkUngrouped
  by_cases h : truthy (jsOr (m a.index) a.name) <;> simp [h]

lemma mkWinner_idem (m : ℕ → Option String) (a : Attribute) :
    mkWinner m (mkWinner m a) = mkWinner m a := by
  unfold mkWinner
  by_cases h : truthy (jsOr (m a.index) a.name) <;> simp [h]

lemma mkUngrouped_idem (m : ℕ → Option String) (a : Attribute) :
    mkUngrouped m (mkUngrouped m a) = mkUngrouped m a := by
  unfold mkUngrouped
  by_cases h : truthy (jsOr (m a.index) a.name) <;> simp [h]

/-- Every entry of the winners part carries an index declared in one of the
groups. -/
lemma winnersList_mem_index {groups : List Group} {m : ℕ → Option String}
    {attrs : List Attribute} {w : Attribute}
    (hw : w ∈ winnersList groups m attrs) :
    ∃ g ∈ groups, w.index ∈ g.indices := by
  obtain ⟨g, hg, hfg⟩ := List.mem_filterMap.mp hw
  cases hscan : groupScan attrs g.indices (-1) none with
  | none => rw [hscan] at hfg; cases hfg
  | some w₀ =>
    rw [hscan] at hfg
    obtain rfl : mkWinner m w₀ = w := by injection hfg
    rcases groupScan_mem hscan with hcontra | ⟨-, hidx⟩
    · exact absurd hcontra.symm (Option.some_ne_none w₀)
    · exact ⟨g, hg, by rw [mkWinner_index]; exact hidx⟩

/-- On a data-model input, the `usedIndices` filter agrees with "the index is
declared in no group". -/
lemma usedOf_filter_eq (groups : List Group) (attrs : List Attribute)
    (hnd : (attrs.map Attribute.index).Nodup)
    (hpos : ∀ a ∈ attrs, 0 ≤ a.probability) :
    attrs.filter (fun a => !((usedOf groups attrs).contains a.index)) =
      attrs.filter (fun a => decide (∀ g ∈ groups, a.index ∉ g.indices)) := by
  refine List.filter_congr ?_
  intro a ha
  have hiff : a.index ∈ usedOf groups attrs ↔
      ∃ g ∈ groups, a.index ∈ g.indices := by
    rw [mem_usedOf]
    constructor
    · rintro ⟨g, hg, -, hx⟩
      exact ⟨g, hg, hx⟩
    · rintro ⟨g, hg, hx⟩
      exact ⟨g, hg, (groupScan_isSome_iff hnd hpos).mpr ⟨a, ha, hx⟩, hx⟩
  by_cases hc : a.index ∈ usedOf groups attrs
  · have hng : ¬ ∀ g ∈ groups, a.index ∉ g.indices := by
      obtain ⟨g, hg, hx⟩ := hiff.mp hc
      intro hall
      exact hall g hg hx
    simp [List.elem_iff.mpr hc, hng, hc]
  · have hall : ∀ g ∈ groups, a.index ∉ g.indices := by
      intro g hg hx
      exact hc (hiff.mpr ⟨g, hg, hx⟩)
    have hcb : (usedOf groups attrs).contains a.index = false := by
      rw [← Bool.not_eq_true]
      intro hb
      exact hc (List.elem_iff.mp hb)
    simp [hcb, hc]
    exact hall

lemma filter_map_index_nodup {attrs : List Attribute} {p : Attribute → Bool}
    (hnd : (attrs.map Attribute.index).Nodup) :
    ((attrs.filter p).map Attribute.index).Nodup :=
  List.Nodup.sublist (List.Sublist.map _ (List.filter_sublist attrs)) hnd

/-- **C3.** For every input with at most one observation per index and
nonnegative probabilities, the cpu-variant resolver's output is exactly the
per-group winners in declaration order followed by the input observations
whose index is declared in no group, in input order, with display labels
attached; each such ungrouped observation occurs exactly once in the
output. -/
theorem cpu_dominant_output_structure
    (attrs : List Attribute)
    (hnd : (attrs.map Attribute.index).Nodup)
    (hpos : ∀ a ∈ attrs, 0 ≤ a.probability) :
    getDominantAttributes cpuAttributeGroups cpuDisplayMapping attrs =
      winnersList cpuAttributeGroups cpuDisplayMapping attrs ++
        (attrs.filter
          (fun a => decide (∀ g ∈ cpuAttributeGroups, a.index ∉ g.indices))).map
          (mkUngrouped cpuDisplayMapping) ∧
      (∀ a ∈ attrs, (∀ g ∈ cpuAttributeGroups, a.index ∉ g.indices) →
        (getDominantAttributes cpuAttributeGroups cpuDisplayMapping attrs).count
          (mkUngrouped cpuDisplayMapping a) = 1) := by
  have hmain : getDominantAttributes cpuAttributeGroups cpuDisplayMapping attrs =
      winnersList cpuAttributeGroups cpuDisplayMapping attrs ++
        (attrs.filter
          (fun a => decide (∀ g ∈ cpuAttributeGroups, a.index ∉ g.indices))).map
          (mkUngrouped cpuDisplayMapping) := by
    rw [getDominantAttributes_eq, usedOf_filter_eq _ _ hnd hpos]
  refine ⟨hmain, ?_⟩
  intro a ha hnog
  rw [hmain, List.count_append]
  have hq : (fun a => decide (∀ g ∈ cpuAttributeGroups, a.index ∉ g.indices)) a
      = true := decide_eq_true hnog
  have hamem : a ∈ attrs.filter
      (fun a => decide (∀ g ∈ cpuAttributeGroups, a.index ∉ g.indices)) :=
    List.mem_filter.mpr ⟨ha, hq⟩
  have hcw : (winnersList cpuAttributeGroups cpuDisplayMapping attrs).count
      (mkUngrouped cpuDisplayMapping a) = 0 := by
    rw [List.count_eq_zero]
    intro hmem
    obtain ⟨g, hg, hidx⟩ := winnersList_mem_index hmem
    rw [mkUngrouped_index] at hidx
    exact hnog g hg hidx
  have hct : ((attrs.filter
      (fun a => decide (∀ g ∈ cpuAttributeGroups, a.index ∉ g.indices))).map
      (mkUngrouped cpuDisplayMapping)).count (mkUngrouped cpuDisplayMapping a)
      = 1 := by
    have hfnd : ((attrs.filter
        (fun a => decide (∀ g ∈ cpuAttributeGroups, a.index ∉ g.indices))).map
        Attribute.index).Nodup := filter_map_index_nodup hnd
    have hinj : ∀ x ∈ attrs.filter
        (fun a => decide (∀ g ∈ cpuAttributeGroups, a.index ∉ g.indices)),
        ∀ y ∈ attrs.filter
        (fun a => decide (∀ g ∈ cpuAttributeGroups, a.index ∉ g.indices)),
        mkUngrouped cpuDisplayMapping x = mkUngrouped cpuDisplayMapping y →
          x = y := by
      intro x hx y hy hxy
      have hix : x.index = y.index := by
        rw [← mkUngrouped_index cpuDisplayMapping x, hxy, mkUngrouped_index]
      exact List.inj_on_of_nodup_map hfnd hx hy hix
    have hmnd : ((attrs.filter
        (fun a => decide (∀ g ∈ cpuAttributeGroups, a.index ∉ g.indices))).map
        (mkUngrouped cpuDisplayMapping)).Nodup := by
      refine List.Nodup.map_on hinj ?_
      exact List.Nodup.of_map _ hfnd
    exact List.count_eq_one_of_mem hmnd (List.mem_map_of_mem _ hamem)
  rw [hcw, hct]

/-- Concrete input for the C3 witness: an ungrouped smile observation
(index 0), a gender observation (index 1) and an eyeglasses observation
(index 17, also ungrouped in the cpu schema). -/
def c3WitnessAttrs : List Attribute :=
  [⟨some "smile", mkRat 6 10, 1, 0, none⟩,
   ⟨some "gender_male", mkRat 8 10, 2, 1, none⟩,
   ⟨some "a person with eyeglasses", mkRat 1 10, 3, 17, none⟩]

/-- Witness: the C3 theorem applied at a concrete input. -/
theorem cpu_dominant_output_structure_witness :
    ((c3WitnessAttrs.map Attribute.index).Nodup ∧
      (∀ a ∈ c3WitnessAttrs, 0 ≤ a.probability)) ∧
    getDominantAttributes cpuAttributeGroups cpuDisplayMapping c3WitnessAttrs =
      winnersList cpuAttributeGroups cpuDisplayMapping c3WitnessAttrs ++
        (c3WitnessAttrs.filter
          (fun a => decide (∀ g ∈ cpuAttributeGroups, a.index ∉ g.indices))).map
          (mkUngrouped cpuDisplayMapping) ∧
      (∀ a ∈ c3WitnessAttrs, (∀ g ∈ cpuAttributeGroups, a.index ∉ g.indices) →
        (getDominantAttributes cpuAttributeGroups cpuDisplayMapping
          c3WitnessAttrs).count (mkUngrouped cpuDisplayMapping a) = 1) :=
  ⟨⟨by decide, by decide⟩,
    cpu_dominant_output_structure c3WitnessAttrs (by decide) (by decide)⟩

/-! ## Per-image classification and the batch loop -/

/-- `String(imageNumber).padStart(6, '0')` (`classifyImage` line 386). -/
def padStart6 (n : ℕ) : String :=
  let s := toString n
  String.mk (List.replicate (6 - s.length) '0') ++ s

/-- The image URL built by `classifyImage` (line 387). -/
def imageUrlOf (n : ℕ) : String := "images_224/" ++ padStart6 n ++ ".png"

/-- `CONFIG.attributeNames` of `OnnxImageClassifier.tsx` (lines 28–83). -/
def attributeNames : List String :=
  ["a man", "a woman", "a boy", "a girl",
   "a person with blond hair", "a person with brown hair",
   "a person with black hair", "a person with red hair",
   "a person with gray hair", "a person with white hair", "a bald person",
   "a bald person", "a person with short hair",
   "a person with hair around his neck",
   "a bald person", "a person with straight hair",
   "a person with curly hair", "a person with wavy hair",
   "a person with afro hair",
   "clean shaven", "stubble", "beard",
   "a person with brown eyes", "a person with blue eyes",
   "a person with green eyes", "a person with hazel eyes",
   "a person with black eyes", "a person with amber eyes",
   "a person with clean hair", "a person with few hair",
   "a woman with her head covered", "a woman with visible forehead",
   "a woman with a headband on her forehead", "a person with a hat",
   "a person with eyes", "a person with visible eyes",
   "a person with eye wrinkles", "a person with eye bags",
   "a person with eyeglasses"]

/-- The per-image outcome record (`results` state, lines 192–198):
`{imageNumber, imageUrl, attributes?, success, error?}`. -/
structure Result where
  imageNumber : ℕ
  imageUrl : String
  attributes : Option (List Attribute)
  success : Bool
  error : Option String
deriving DecidableEq, Repr

/-- The attribute-building loop of `classifyImage` (lines 419–433) with the
probability conversion `σ` abstracted (the source converts with the
real-valued sigmoid, analysed separately over `ℝ`; the loop shape does not
depend on it): the first `min preds.length 39` raw outputs become
observations carrying name, converted probability, raw value and index. -/
def buildAttributes (σ : ℚ → ℚ) (preds : List ℚ) : List Attribute :=
  (preds.take attributeNames.length).enum.map
    (fun p => ⟨attributeNames.get? p.1, σ p.2, p.2, p.1, none⟩)

/-- `classifyImage` (lines 383–452): the pipeline up to and including
inference is the function `infer` (its failures — image decode or inference
errors — surface as the thrown message); a success yields a successful
outcome with the observation list, a failure yields an outcome marked
unsuccessful carrying the error message.  `imageNumber` and `imageUrl` are
set in both branches. -/
def classifyImage (σ : ℚ → ℚ) (infer : ℕ → Except String (List ℚ))
    (imageNumber : ℕ) : Result :=
  match infer imageNumber with
  | Except.ok preds =>
    ⟨imageNumber, imageUrlOf imageNumber, some (buildAttributes σ preds),
      true, none⟩
  | Except.error msg =>
    ⟨imageNumber, imageUrlOf imageNumber, none, false, some msg⟩

/-- The image loop of `processAllImages` (lines 488–493): images `1..K`
classified sequentially, results collected in locator order. -/
def batchResults (σ : ℚ → ℚ) (infer : ℕ → Except String (List ℚ))
    (K : ℕ) : List Result :=
  (List.range K).map (fun j => classifyImage σ infer (j + 1))

/-- The statistics key of a dominant entry (line 509):
`attr.displayName || attr.name`. -/
def statKey (a : Attribute) : Option String := jsOr a.displayName a.name

/-- Body of the statistics loop (lines 508–518): a dominant entry with a
defined key adds the image number to that key's set (the JS
`Record<string, Set<number>>` is modelled as `String → Finset ℕ`). -/
def addKeyed (img : ℕ) (s : String → Finset ℕ) (a : Attribute) :
    String → Finset ℕ :=
  match statKey a with
  | some k => fun k' => if k' = k then insert img (s k') else s k'
  | none => s

/-- Per-result statistics update (lines 504–519): only successful outcomes
with a defined attribute list contribute; their dominant selection is
recomputed and folded through `addKeyed`. -/
def statsStep (st : String → Finset ℕ) (r : Result) : String → Finset ℕ :=
  if r.success then
    match r.attributes with
    | some attrs =>
      (getDominantAttributes attributeGroups displayMapping attrs).foldl
        (addKeyed r.imageNumber) st
    | none => st
  else st

/-- The statistics accumulated over the whole batch (lines 503–520). -/
def batchStats (results : List Result) : String → Finset ℕ :=
  results.foldl statsStep (fun _ => ∅)

/-- `finalStats[key]` (lines 523–527): the number of distinct images in the
key's set. -/
def finalStats (results : List Result) (key : String) : ℕ :=
  (batchStats results key).card

/-! ## C2 — aggregate statistics invariants -/

lemma addKeyed_fold_subset (img : ℕ) :
    ∀ (l : List Attribute) (st : String → Finset ℕ) (key : String),
      (l.foldl (addKeyed img) st) key ⊆ insert img (st key) := by
  intro l
  induction l with
  | nil => intro st key; exact Finset.subset_insert _ _
  | cons a rest ih =>
    intro st key
    rw [List.foldl_cons]
    refine subset_trans (ih _ key) ?_
    cases hk : statKey a with
    | none =>
      simp only [addKeyed, hk]
      exact subset_refl _
    | some k =>
      simp only [addKeyed, hk]
      by_cases h : key = k
      · subst h
        rw [if_pos rfl, Finset.insert_idem]
      · rw [if_neg h]

lemma statsStep_subset (st : String → Finset ℕ) (r : Result) (key : String) :
    statsStep st r key ⊆ insert r.imageNumber (st key) := by
  unfold statsStep
  by_cases hs : r.success
  · simp only [hs, if_true]
    cases hattrs : r.attributes with
    | none => exact Finset.subset_insert _ _
    | some attrs => exact addKeyed_fold_subset _ _ _ _
  · simp only [hs, if_false]
    exact Finset.subset_insert _ _

lemma batchStats_fold_subset :
    ∀ (results : List Result) (st : String → Finset ℕ) (key : String),
      (results.foldl statsStep st) key ⊆
        st key ∪ (results.map Result.imageNumber).toFinset := by
  intro results
  induction results with
  | nil => intro st key; simp
  | cons r rest ih =>
    intro st key
    rw [List.foldl_cons]
    refine subset_trans (ih _ key) ?_
    refine Finset.union_subset ?_ ?_
    · refine subset_trans (statsStep_subset st r key) ?_
      intro x hx
      rcases Finset.mem_insert.mp hx with rfl | hx'
      · simp
      · exact Finset.mem_union_left _ hx'
    · intro x hx
      refine Finset.mem_union_right _ ?_
      simp only [List.map_cons, List.toFinset_cons]
      exact Finset.mem_insert_of_mem hx

/-- **C2.** The aggregate count of any display key never exceeds the number
of images processed in the batch run, and the per-image statistics update
increments any single key's count by at most one — even when several
dominant selections of the image resolve to the same key (de-duplication by
image identifier). -/
theorem aggregate_counts_bounded :
    (∀ (σ : ℚ → ℚ) (infer : ℕ → Except String (List ℚ)) (K : ℕ) (key : String),
      finalStats (batchResults σ infer K) key ≤ K) ∧
    (∀ (st : String → Finset ℕ) (r : Result) (key : String),
      (statsStep st r key).card ≤ (st key).card + 1) := by
  constructor
  · intro σ infer K key
    have h1 : batchStats (batchResults σ infer K) key ⊆
        ((batchResults σ infer K).map Result.imageNumber).toFinset := by
      have := batchStats_fold_subset (batchResults σ infer K)
        (fun _ => (∅ : Finset ℕ)) key
      simpa using this
    calc finalStats (batchResults σ infer K) key
        ≤ (((batchResults σ infer K).map Result.imageNumber).toFinset).card :=
          Finset.card_le_card h1
      _ ≤ ((batchResults σ infer K).map Result.imageNumber).length :=
          List.toFinset_card_le _
      _ = K := by simp [batchResults]
  · intro st r key
    calc (statsStep st r key).card
        ≤ (insert r.imageNumber (st key)).card :=
          Finset.card_le_card (statsStep_subset st r key)
      _ ≤ (st key).card + 1 := Finset.card_insert_le _ _

/-! ## C7 — per-image failures and batch completeness -/

/-- **C7.** The batch always produces exactly one outcome per requested
image, in locator order; an image whose pipeline fails appears as an
unsuccessful entry carrying the error message, and unsuccessful entries
contribute nothing to the aggregate statistics. -/
theorem batch_failures_isolated
    (σ : ℚ → ℚ) (infer : ℕ → Except String (List ℚ)) (K i : ℕ)
    (hi : i < K) (msg : String) (hmsg : infer (i + 1) = Except.error msg)
    (st : String → Finset ℕ) (r : Result) (hr : r.success = false) :
    (batchResults σ infer K).length = K ∧
    (batchResults σ infer K).get? i = some (classifyImage σ infer (i + 1)) ∧
    (classifyImage σ infer (i + 1)).imageNumber = i + 1 ∧
    (classifyImage σ infer (i + 1)).success = false ∧
    (classifyImage σ infer (i + 1)).error = some msg ∧
    statsStep st r = st := by
  refine ⟨by simp [batchResults], ?_, ?_, ?_, ?_, ?_⟩
  · rw [batchResults, List.get?_map, List.get?_range hi]
    rfl
  · cases h : infer (i + 1) <;> simp [classifyImage, h]
  · simp [classifyImage, hmsg]
  · simp [classifyImage, hmsg]
  · unfold statsStep
    simp [hr]

/-- A concrete three-image run in which image 2 fails. -/
def c7Infer : ℕ → Except String (List ℚ) :=
  fun n => if n = 2 then Except.error "decode failed" else Except.ok [1, 0]

/-- Witness: the C7 theorem applied to the concrete failing run. -/
theorem batch_failures_isolated_witness :
    (1 < 3 ∧ c7Infer 2 = Except.error "decode failed" ∧
      (classifyImage id c7Infer 2).success = false) ∧
    (batchResults id c7Infer 3).length = 3 ∧
    (batchResults id c7Infer 3).get? 1 = some (classifyImage id c7Infer 2) ∧
    (classifyImage id c7Infer 2).imageNumber = 2 ∧
    (classifyImage id c7Infer 2).success = false ∧
    (classifyImage id c7Infer 2).error = some "decode failed" ∧
    statsStep (fun _ => ∅) (classifyImage id c7Infer 2) = (fun _ => ∅) :=
  ⟨⟨by decide, rfl, rfl⟩,
    batch_failures_isolated id c7Infer 3 1 (by decide) "decode failed" rfl
      (fun _ => ∅) (classifyImage id c7Infer 2) rfl⟩

/-! ## C5 — display filter composition -/

/-- `getFilteredAttributes` (`OnnxImageClassifier.tsx` lines 653–667):
dominance reduction when `showDominantOnly` is set, then the strict `> 0.5`
confidence filter when `showOnlyHighConfidence` is set. -/
def getFilteredAttributes (showDominantOnly showOnlyHighConfidence : Bool)
    (attributes : List Attribute) : List Attribute :=
  let filtered := attributes
  let filtered :=
    if showDominantOnly then
      getDominantAttributes attributeGroups displayMapping filtered
    else filtered
  let filtered :=
    if showOnlyHighConfidence then
      filtered.filter (fun a => decide (mkRat 1 2 < a.probability))
    else filtered
  filtered

/-- The dominance-reduction stage of the display filter, on its own. -/
def dominanceStage (flag : Bool) (attrs : List Attribute) : List Attribute :=
  if flag then getDominantAttributes attributeGroups displayMapping attrs
  else attrs

/-- The confidence stage of the display filter, on its own: retain exactly
the entries with probability strictly greater than `0.5`. -/
def confidenceStage (flag : Bool) (attrs : List Attribute) : List Attribute :=
  if flag then attrs.filter (fun a => decide (mkRat 1 2 < a.probability))
  else attrs

/-- **C5.** For every switch setting the display filter equals the
composition of its two stages — dominance reduction first, confidence
filter second — and the confidence stage retains exactly the entries with
probability strictly greater than `0.5`. -/
theorem display_filter_composition :
    (∀ (d h : Bool) (attrs : List Attribute),
      getFilteredAttributes d h attrs =
        confidenceStage h (dominanceStage d attrs)) ∧
    (∀ (attrs : List Attribute) (a : Attribute),
      a ∈ confidenceStage true attrs ↔
        a ∈ attrs ∧ mkRat 1 2 < a.probability) := by
  constructor
  · intro d h attrs
    cases d <;> cases h <;> rfl
  · intro attrs a
    simp [confidenceStage, List.mem_filter]

/-! ## C4 — schema well-formedness and (absent) validation -/

/-- A schema is well-formed when no attribute index is declared in two
declared groups. -/
def wellFormedSchema (groups : List Group) : Bool :=
  decide (groups.Pairwise (fun g₁ g₂ => ∀ i ∈ g₁.indices, i ∉ g₂.indices))

/-- The schema-validation outcome of the repository.  Modelled from the
source by inspection: no source file validates `CONFIG.attributeGroups` —
the configuration is a plain object literal, `getDominantAttributes` reads
`group.indices` directly, and no code path in the repository constructs or
throws any schema error.  The outcome is therefore constantly `none`
(no error raised), whatever the schema. -/
def schemaValidationError (_groups : List Group) : Option String :=
  none

/-- A malformed schema: index 0 declared in two groups. -/
def overlappingGroups : List Group := [⟨"A", [0]⟩, ⟨"B", [0]⟩]

/-- **C4 counterexample.** On a malformed schema (index 0 in two declared
groups) the system raises no `SchemaError` — there is no validation step —
and the resolver happily processes an input against it, even duplicating
the shared observation in its output. -/
theorem schema_error_never_raised :
    wellFormedSchema overlappingGroups = false ∧
    schemaValidationError overlappingGroups = none ∧
    getDominantAttributes overlappingGroups displayMapping
      [⟨some "a man", 1, 1, 0, none⟩] =
      [⟨some "a man", 1, 1, 0, some "Uomo"⟩,
       ⟨some "a man", 1, 1, 0, some "Uomo"⟩] :=
  ⟨by decide, rfl, by decide⟩

/-- **C4 (amended).** Both schemas declared by the repository are
well-formed — no index appears in more than one declared group — while the
source performs no schema validation at all and never raises a
`SchemaError`. -/
theorem declared_schemas_well_formed :
    wellFormedSchema attributeGroups = true ∧
    wellFormedSchema cpuAttributeGroups = true ∧
    (∀ groups : List Group, schemaValidationError groups = none) :=
  ⟨by decide, by decide, fun _ => rfl⟩

/-! ## C8 — the probability converter -/

/-- The probability conversion of `classifyImage` (line 425): the logistic
sigmoid `1 / (1 + e^(−x))`, over the reals. -/
noncomputable def sigmoid (x : ℝ) : ℝ := 1 / (1 + Real.exp (-x))

/-- The conversion loop of `classifyImage` (lines 419–433) over the reals:
the first `min preds.length bound` raw outputs are mapped independently
through the sigmoid (`bound` is `CONFIG.attributeNames.length`; the
`pred !== undefined` guard never fires for an in-range read). -/
noncomputable def logitsToProbs (preds : List ℝ) (bound : ℕ) : List ℝ :=
  (preds.take bound).map sigmoid

/-- **C8.** Every sigmoid value lies in `[0, 1]`, the sigmoid is strictly
monotonically increasing, and the converter maps each raw logit
independently — the `i`-th output is the sigmoid of the `i`-th retained
logit, with no cross-element normalization. -/
theorem sigmoid_bounds_mono_independent :
    (∀ x : ℝ, 0 ≤ sigmoid x ∧ sigmoid x ≤ 1) ∧
    StrictMono sigmoid ∧
    (∀ (preds : List ℝ) (bound i : ℕ),
      (logitsToProbs preds bound).get? i =
        ((preds.take bound).get? i).map sigmoid) := by
  refine ⟨?_, ?_, ?_⟩
  · intro x
    have hpos : 0 < 1 + Real.exp (-x) := by positivity
    constructor
    · exact le_of_lt (div_pos one_pos hpos)
    · rw [sigmoid, div_le_one hpos]
      linarith [Real.exp_pos (-x)]
  · intro x y hxy
    have h : Real.exp (-y) < Real.exp (-x) := Real.exp_lt_exp.mpr (by linarith)
    have h2 : 1 + Real.exp (-y) < 1 + Real.exp (-x) := by linarith
    exact one_div_lt_one_div_of_lt (by positivity) h2
  · intro preds bound i
    rw [logitsToProbs, List.get?_map]

/-! ## The dominant-attributes JSON module (`src/unnamed/part_001`) -/

/-- `DominantAttribute` of `part_001` (lines 37–43); the source field
`attribute` is a Lean keyword and is rendered `attr` here. -/
structure DominantAttribute where
  group : String
  attr : String
  probability : ℚ
  percentage : ℤ
  index : ℕ
deriving DecidableEq, Repr

/-- `ImageDominantAttributes` of `part_001` (lines 48–52). -/
structure ImageDominantAttributes where
  imageId : ℕ
  imageUrl : String
  dominantAttributes : List DominantAttribute
deriving DecidableEq, Repr

/-- `DominantAttributesJSON` of `part_001` (lines 57–61). -/
structure DominantAttributesJSON where
  totalImages : ℕ
  elapsedTime : ℚ
  images : List ImageDominantAttributes
deriving DecidableEq, Repr

/-- JS `Math.round`: the floor of `x + 1/2`. -/
def jsRound (q : ℚ) : ℤ := (q + mkRat 1 2).floor

/-- `getDominantInGroup` of `part_001` (lines 66–95): the same scan as
`groupScan`; on a winner, the display text is
`CONFIG.displayMapping[index] || name || 'Unknown'` (the `part_001`
configuration is identical to `displayMapping`). -/
def getDominantInGroup (attributes : List Attribute) (groupName : String)
    (groupIndices : List ℕ) : Option DominantAttribute :=
  match groupScan attributes groupIndices (-1) none with
  | none => none
  | some dominant =>
    some ⟨groupName,
      jsOrD (displayMapping dominant.index) (jsOrD dominant.name "Unknown"),
      dominant.probability, jsRound (dominant.probability * 100),
      dominant.index⟩

/-- `extractDominantAttributes` of `part_001` (lines 100–117), over the
per-image outcome record (the `ClassificationResult` of `standalone.js`
exposes the same fields used here: `success`, `attributes`, `imageNumber`,
`imageUrl`). -/
def extractDominantAttributes (result : Result) : ImageDominantAttributes :=
  { imageId := result.imageNumber
    imageUrl := result.imageUrl
    dominantAttributes :=
      if result.success then
        match result.attributes with
        | some attrs =>
          attributeGroups.filterMap
            (fun g => getDominantInGroup attrs g.name g.indices)
        | none => []
      else [] }

/-- `QUESTION_TO_TRAIT_MAPPING` of `part_001` (lines 209–229): every index
0–18 maps to a non-null trait string (questions 17 and 18 map to the
placeholder traits `Vocale`/`Consonante`); all other indices are absent. -/
def questionToTrait : ℕ → Option String
  | 0 => some "Uomo"
  | 1 => some "Donna"
  | 2 => some "Capelli biondi"
  | 3 => some "Capelli marroni"
  | 4 => some "Capelli neri"
  | 5 => some "Capelli rossi"
  | 6 => some "No Capelli"
  | 7 => some "Capelli lunghi"
  | 8 => some "Capelli corti"
  | 9 => some "Capelli ricci"
  | 10 => some "Capelli lisci"
  | 11 => some "Con Barba"
  | 12 => some "Occhi azzurri"
  | 13 => some "Occhi verdi"
  | 14 => some "Occhi marroni"
  | 15 => some "Con Occhiali"
  | 16 => some "Con Cappello"
  | 17 => some "Vocale"
  | 18 => some "Consonante"
  | _ => none

/-- `TraitCheckResult` of `part_001` (lines 234–237). -/
structure TraitCheckResult where
  hasTrait : Bool
  percentage : ℤ
deriving DecidableEq, Repr

/-- `hasTrait` of `part_001` (lines 253–277): look up the image by id, then
look for a dominant attribute whose display string equals the requested
trait (case-sensitive string equality); absent image or absent trait give
`{hasTrait: false, percentage: 0}`. -/
def hasTrait (json : DominantAttributesJSON) (imageId : ℕ) (trait : String) :
    TraitCheckResult :=
  match json.images.find? (fun img => img.imageId == imageId) with
  | none => ⟨false, 0⟩
  | some image =>
    match image.dominantAttributes.find?
        (fun a => a.attr == trait) with
    | some a => ⟨true, a.percentage⟩
    | none => ⟨false, 0⟩

/-- The regex test `/^[aeiou]/i.test(s)`: the first character, lowered, is a
vowel. -/
def startsWithVowelCI (s : String) : Bool :=
  match s.data with
  | [] => false
  | c :: _ =>
    c.toLower == 'a' || c.toLower == 'e' || c.toLower == 'i' ||
      c.toLower == 'o' || c.toLower == 'u'

/-- `hasTraitByQuestion` of `part_001` (lines 294–316): unmapped questions
give `null`; question indices below 17 are answered through `hasTrait` with
the mapped trait; every other mapped question (17 and 18) is answered by
testing the vowel regex on the hardcoded name `"Valerio"` with percentage
100 (the `questionIndex > -1` half of the source's guard is vacuous for
natural-number indices). -/
def hasTraitByQuestion (json : DominantAttributesJSON) (imageId : ℕ)
    (questionIndex : ℕ) : Option TraitCheckResult :=
  match questionToTrait questionIndex with
  | none => none
  | some trait =>
    if questionIndex < 17 then some (hasTrait json imageId trait)
    else some ⟨startsWithVowelCI "Valerio", 100⟩

/-! ## C9 — the two name questions get the same fixed answer -/

/-- **C9.** For every JSON and every image identifier, the vowel question
(17) and the consonant question (18) return the identical result
`{hasTrait: false, percentage: 100}`: both branches evaluate the same vowel
regex on the fixed name `"Valerio"` and ignore the JSON and the image
identifier, so the two complementary questions never receive complementary
answers. -/
theorem vowel_consonant_questions_identical :
    ∀ (json : DominantAttributesJSON) (imageId : ℕ),
      hasTraitByQuestion json imageId 17 = some ⟨false, 100⟩ ∧
      hasTraitByQuestion json imageId 18 = some ⟨false, 100⟩ ∧
      hasTraitByQuestion json imageId 17 = hasTraitByQuestion json imageId 18 :=
  fun _ _ => ⟨rfl, rfl, rfl⟩

/-! ## C10 — the brown-hair question can never match -/

/-- Every display-mapping entry reachable from a declared group is a
non-empty string different from the question-3 trait
`"Capelli marroni"` (the mapping emits `"Capelli Marroni"`). -/
lemma displayMapping_grouped_ne_marroni :
    ∀ g ∈ attributeGroups, ∀ i ∈ g.indices,
      (displayMapping i).isSome = true ∧
      (displayMapping i).getD "" ≠ "" ∧
      (displayMapping i).getD "" ≠ "Capelli marroni" := by
  decide

/-- Unfolding of a successful `getDominantInGroup`. -/
lemma getDominantInGroup_some {attrs : List Attribute} {gn : String}
    {L : List ℕ} {d : DominantAttribute}
    (h : getDominantInGroup attrs gn L = some d) :
    ∃ dominant, groupScan attrs L (-1) none = some dominant ∧
      d = ⟨gn,
        jsOrD (displayMapping dominant.index) (jsOrD dominant.name "Unknown"),
        dominant.probability, jsRound (dominant.probability * 100),
        dominant.index⟩ := by
  unfold getDominantInGroup at h
  cases hscan : groupScan attrs L (-1) none with
  | none =>
    simp only [hscan] at h
    exact absurd h.symm (Option.some_ne_none d)
  | some dominant =>
    simp only [hscan] at h
    injection h with h'
    exact ⟨dominant, rfl, h'.symm⟩

/-- No dominant attribute produced by `extractDominantAttributes` carries
the display string `"Capelli marroni"`. -/
lemma extract_attribute_ne_marroni (r : Result) :
    ∀ d ∈ (extractDominantAttributes r).dominantAttributes,
      (d.attr == "Capelli marroni") = false := by
  intro d hd
  unfold extractDominantAttributes at hd
  dsimp only at hd
  by_cases hs : r.success
  · rw [if_pos hs] at hd
    cases hattrs : r.attributes with
    | none =>
      simp only [hattrs] at hd
      cases hd
    | some attrs =>
      simp only [hattrs] at hd
      obtain ⟨g, hg, hsome⟩ := List.mem_filterMap.mp hd
      obtain ⟨dominant, hscan, rfl⟩ := getDominantInGroup_some hsome
      have hidx : dominant.index ∈ g.indices := by
        rcases groupScan_mem hscan with hcontra | ⟨-, h⟩
        · exact absurd hcontra.symm (Option.some_ne_none dominant)
        · exact h
      obtain ⟨hsome', hne, hnem⟩ :=
        displayMapping_grouped_ne_marroni g hg dominant.index hidx
      obtain ⟨s, hdm⟩ := Option.isSome_iff_exists.mp hsome'
      rw [hdm] at hne hnem
      simp only [Option.getD_some] at hne hnem
      have hattr : jsOrD (displayMapping dominant.index)
          (jsOrD dominant.name "Unknown") = s := by
        simp only [hdm, jsOrD]
        rw [if_neg hne]
      show (jsOrD (displayMapping dominant.index)
          (jsOrD dominant.name "Unknown") == "Capelli marroni") = false
      rw [hattr]
      exact beq_eq_false_iff_ne.mpr hnem
  · rw [if_neg hs] at hd
    cases hd

/-- **C10.** For every JSON built by `generateDominantAttributesJSON` (its
images are exactly the `extractDominantAttributes` of the classification
results) and every image identifier, the brown-hair question (index 3)
always returns `{hasTrait: false, percentage: 0}`: the question maps to the
trait `"Capelli marroni"` while the display mapping emits
`"Capelli Marroni"`, and the trait comparison is case-sensitive, so no
dominant attribute can ever match. -/
theorem brown_hair_question_always_false
    (results : List Result) (totalImages : ℕ) (elapsed : ℚ) (imageId : ℕ) :
    hasTraitByQuestion
      ⟨totalImages, elapsed, results.map extractDominantAttributes⟩
      imageId 3 = some ⟨false, 0⟩ := by
  have h3 : hasTraitByQuestion
      ⟨totalImages, elapsed, results.map extractDominantAttributes⟩
      imageId 3 =
      some (hasTrait
        ⟨totalImages, elapsed, results.map extractDominantAttributes⟩
        imageId "Capelli marroni") := rfl
  rw [h3]
  unfold hasTrait
  cases hf : (results.map extractDominantAttributes).find?
      (fun img => img.imageId == imageId) with
  | none => rfl
  | some image =>
    simp only
    have himg : image ∈ results.map extractDominantAttributes :=
      List.mem_of_find?_eq_some hf
    obtain ⟨r, -, rfl⟩ := List.mem_map.mp himg
    have hnone : (extractDominantAttributes r).dominantAttributes.find?
        (fun a => a.attr == "Capelli marroni") = none := by
      rw [List.find?_eq_none]
      intro d hd
      rw [extract_attribute_ne_marroni r d hd]
      exact Bool.false_ne_true
    rw [hnone]

/-! ## C6 — idempotence of the display filter -/

/-- When exactly one present observation of the scanned list is declared,
the scan returns it. -/
lemma groupScan_unique {l : List Attribute} {L : List ℕ} {w : Attribute}
    (hnd : (l.map Attribute.index).Nodup)
    (hw : w ∈ l) (hwL : w.index ∈ L) (hwp : 0 ≤ w.probability)
    (huniq : ∀ a ∈ l, a.index ∈ L → a = w) :
    groupScan l L (-1) none = some w := by
  have hex : ∃ v, groupScan l L (-1) none = some v :=
    groupScan_isSome ⟨w.index, hwL, w, findByIndex_self hnd hw,
      show (-1 : ℚ) < w.probability from lt_of_lt_of_le (by norm_num) hwp⟩
  obtain ⟨w', hw'⟩ := hex
  rcases groupScan_mem hw' with hcontra | ⟨hmem, hidx⟩
  · exact absurd hcontra.symm (Option.some_ne_none w')
  · rw [hw', huniq w' hmem hidx]

/-- A scan over a list owning no declared member returns nothing. -/
lemma groupScan_none {l : List Attribute} {L : List ℕ}
    (h : ∀ a ∈ l, a.index ∉ L) :
    groupScan l L (-1) none = none := by
  cases hw : groupScan l L (-1) none with
  | none => rfl
  | some w =>
    rcases groupScan_mem hw with hcontra | ⟨hmem, hidx⟩
    · exact hcontra.symm
    · exact absurd hidx (h w hmem)

lemma winnersList_mem {groups : List Group} {m : ℕ → Option String}
    {attrs : List Attribute} {w : Attribute} :
    w ∈ winnersList groups m attrs ↔
      ∃ g ∈ groups, ∃ a, groupScan attrs g.indices (-1) none = some a ∧
        w = mkWinner m a := by
  constructor
  · intro hw
    obtain ⟨g, hg, hmap⟩ := List.mem_filterMap.mp hw
    obtain ⟨a, ha, hfa⟩ := Option.map_eq_some'.mp hmap
    exact ⟨g, hg, a, ha, hfa.symm⟩
  · rintro ⟨g, hg, a, ha, rfl⟩
    refine List.mem_filterMap.mpr ⟨g, hg, ?_⟩
    rw [ha]
    rfl

/-- Over pairwise-disjoint groups the winners carry pairwise distinct
indices. -/
lemma winnersList_index_nodup {m : ℕ → Option String}
    {attrs : List Attribute} :
    ∀ {groups : List Group},
      groups.Pairwise (fun g₁ g₂ => ∀ i ∈ g₁.indices, i ∉ g₂.indices) →
      ((winnersList groups m attrs).map Attribute.index).Nodup := by
  intro groups
  induction groups with
  | nil => intro _; simp [winnersList]
  | cons g gs ih =>
    intro hp
    obtain ⟨hhead, htail⟩ := List.pairwise_cons.mp hp
    unfold winnersList
    rw [List.filterMap_cons]
    cases hscan : groupScan attrs g.indices (-1) none with
    | none =>
      simp only [Option.map_none']
      exact ih htail
    | some a =>
      simp only [Option.map_some', List.map_cons]
      have hidx : a.index ∈ g.indices := by
        rcases groupScan_mem hscan with hc | ⟨-, h⟩
        · exact absurd hc.symm (Option.some_ne_none a)
        · exact h
      refine List.nodup_cons.mpr ⟨?_, ih htail⟩
      intro hmem
      obtain ⟨w', hw', hwi⟩ := List.mem_map.mp hmem
      obtain ⟨g', hg', hidx'⟩ := winnersList_mem_index hw'
      rw [mkWinner_index] at hwi
      refine hhead g' hg' a.index hidx ?_
      rw [← hwi]
      exact hidx'

/-- Pairwise group disjointness gives symmetric disjointness of any two
distinct groups of the list. -/
lemma groups_disjoint_of_pairwise {groups : List Group}
    (Hd : groups.Pairwise (fun g₁ g₂ => ∀ i ∈ g₁.indices, i ∉ g₂.indices))
    {g₁ g₂ : Group} (h₁ : g₁ ∈ groups) (h₂ : g₂ ∈ groups) (hne : g₁ ≠ g₂) :
    ∀ i ∈ g₁.indices, i ∉ g₂.indices := by
  have hs : Symmetric (fun g₁ g₂ : Group => ∀ i ∈ g₁.indices, i ∉ g₂.indices) := by
    intro x y hxy i hiy hix
    exact hxy i hix hiy
  exact Hd.forall hs h₁ h₂ hne

lemma filter_filterMap {α β : Type} (p : β → Bool) (f : α → Option β)
    (l : List α) :
    (l.filterMap f).filter p =
      l.filterMap (fun a => (f a).bind (fun b => if p b then some b else none)) := by
  induction l with
  | nil => rfl
  | cons a rest ih =>
    cases hf : f a with
    | none => simp [List.filterMap_cons, hf, ih]
    | some b =>
      by_cases hp : p b <;>
        simp [List.filterMap_cons, hf, hp, List.filter_cons, ih]

/-- Filtering a resolver output and resolving again returns the filtered
list unchanged: for pairwise-disjoint groups, `getDominantAttributes`
composed with any filter of its own output is a fixpoint.  This is the
engine behind display-filter idempotence. -/
lemma getDominant_filter_fixpoint (groups : List Group)
    (m : ℕ → Option String) (attrs : List Attribute) (p : Attribute → Bool)
    (Hd : groups.Pairwise (fun g₁ g₂ => ∀ i ∈ g₁.indices, i ∉ g₂.indices))
    (hnd : (attrs.map Attribute.index).Nodup)
    (hpos : ∀ a ∈ attrs, 0 ≤ a.probability) :
    getDominantAttributes groups m
        ((getDominantAttributes groups m attrs).filter p) =
      (getDominantAttributes groups m attrs).filter p := by
  set W := winnersList groups m attrs with hW
  set q : Attribute → Bool :=
    fun a => decide (∀ g ∈ groups, a.index ∉ g.indices) with hq
  set U := (attrs.filter q).map (mkUngrouped m) with hU
  have hout : getDominantAttributes groups m attrs = W ++ U := by
    rw [getDominantAttributes_eq, usedOf_filter_eq groups attrs hnd hpos,
      ← hW, ← hU]
  rw [hout]
  set l := (W ++ U).filter p with hl
  have hWel : ∀ w ∈ W, ∃ g ∈ groups, ∃ a, a ∈ attrs ∧ a.index ∈ g.indices ∧
      groupScan attrs g.indices (-1) none = some a ∧ w = mkWinner m a := by
    intro w hw
    rw [hW] at hw
    obtain ⟨g, hg, a, ha, rfl⟩ := winnersList_mem.mp hw
    rcases groupScan_mem ha with hc | ⟨hmem, hidx⟩
    · exact absurd hc.symm (Option.some_ne_none a)
    · exact ⟨g, hg, a, hmem, hidx, ha, rfl⟩
  have hUel : ∀ u ∈ U, ∃ b, b ∈ attrs ∧ u = mkUngrouped m b ∧
      ∀ g ∈ groups, b.index ∉ g.indices := by
    intro u hu
    rw [hU] at hu
    obtain ⟨b, hb, rfl⟩ := List.mem_map.mp hu
    obtain ⟨hbmem, hbq⟩ := List.mem_filter.mp hb
    exact ⟨b, hbmem, rfl, of_decide_eq_true hbq⟩
  have hlsub : ∀ b ∈ l, b ∈ W ++ U := fun b hb => List.mem_of_mem_filter hb
  have hlp : ∀ b ∈ l, p b = true := fun b hb => List.of_mem_filter hb
  have hlpos : ∀ b ∈ l, 0 ≤ b.probability := by
    intro b hb
    rcases List.mem_append.mp (hlsub b hb) with hbm | hbm
    · obtain ⟨g, hg, a, hmem, -, -, rfl⟩ := hWel b hbm
      rw [mkWinner_probability]
      exact hpos a hmem
    · obtain ⟨b', hbmem, rfl, -⟩ := hUel b hbm
      rw [mkUngrouped_probability]
      exact hpos b' hbmem
  have hWnd : (W.map Attribute.index).Nodup := winnersList_index_nodup Hd
  have hUnd : (U.map Attribute.index).Nodup := by
    have hUind : U.map Attribute.index = (attrs.filter q).map Attribute.index := by
      rw [hU, List.map_map]
      exact List.map_eq_map_iff.mpr (fun a _ => mkUngrouped_index m a)
    rw [hUind]
    exact filter_map_index_nodup hnd
  have hWUnd : ((W ++ U).map Attribute.index).Nodup := by
    rw [List.map_append]
    refine List.nodup_append.mpr ⟨hWnd, hUnd, ?_⟩
    intro x hxW hxU
    obtain ⟨w, hw, rfl⟩ := List.mem_map.mp hxW
    obtain ⟨u, hu, hui⟩ := List.mem_map.mp hxU
    obtain ⟨g, hg, a, -, hidx, -, rfl⟩ := hWel w hw
    obtain ⟨b, -, rfl, hbq⟩ := hUel u hu
    rw [mkUngrouped_index, mkWinner_index] at hui
    refine hbq g hg ?_
    rw [hui]
    exact hidx
  have hlnd : (l.map Attribute.index).Nodup := by
    rw [hl]
    exact filter_map_index_nodup hWUnd
  have hscan2none : ∀ g ∈ groups,
      groupScan attrs g.indices (-1) none = none →
      groupScan l g.indices (-1) none = none := by
    intro g hg hscan
    refine groupScan_none ?_
    intro b hb hbidx
    rcases List.mem_append.mp (hlsub b hb) with hbW | hbU
    · obtain ⟨g', hg', a', -, hidx', hscan', rfl⟩ := hWel b hbW
      rw [mkWinner_index] at hbidx
      by_cases hgg : g' = g
      · subst hgg
        rw [hscan'] at hscan
        cases hscan
      · exact groups_disjoint_of_pairwise Hd hg' hg hgg a'.index hidx' hbidx
    · obtain ⟨b', -, rfl, hbq⟩ := hUel b hbU
      rw [mkUngrouped_index] at hbidx
      exact hbq g hg hbidx
  have hscan2some : ∀ g ∈ groups, ∀ a,
      groupScan attrs g.indices (-1) none = some a →
      groupScan l g.indices (-1) none =
        if p (mkWinner m a) then some (mkWinner m a) else none := by
    intro g hg a hscan
    have hamem : a ∈ attrs := by
      rcases groupScan_mem hscan with hc | ⟨hm, -⟩
      · exact absurd hc.symm (Option.some_ne_none a)
      · exact hm
    have haidx : a.index ∈ g.indices := by
      rcases groupScan_mem hscan with hc | ⟨-, hi⟩
      · exact absurd hc.symm (Option.some_ne_none a)
      · exact hi
    have huniq : ∀ b ∈ l, b.index ∈ g.indices → b = mkWinner m a := by
      intro b hb hbidx
      rcases List.mem_append.mp (hlsub b hb) with hbW | hbU
      · obtain ⟨g', hg', a', -, hidx', hscan', rfl⟩ := hWel b hbW
        rw [mkWinner_index] at hbidx
        by_cases hgg : g' = g
        · subst hgg
          rw [hscan'] at hscan
          obtain rfl : a' = a := by injection hscan
          rfl
        · exact absurd hbidx
            (groups_disjoint_of_pairwise Hd hg' hg hgg a'.index hidx')
      · obtain ⟨b', -, rfl, hbq⟩ := hUel b hbU
        rw [mkUngrouped_index] at hbidx
        exact absurd hbidx (hbq g hg)
    by_cases hp : p (mkWinner m a) = true
    · have hwl : mkWinner m a ∈ l := by
        rw [hl]
        refine List.mem_filter.mpr ⟨?_, hp⟩
        refine List.mem_append.mpr (Or.inl ?_)
        rw [hW]
        exact winnersList_mem.mpr ⟨g, hg, a, hscan, rfl⟩
      have hres := groupScan_unique hlnd hwl
        (by rw [mkWinner_index]; exact haidx)
        (by rw [mkWinner_probability]; exact hpos a hamem) huniq
      rw [hres, if_pos hp]
    · have hres : groupScan l g.indices (-1) none = none := by
        refine groupScan_none ?_
        intro b hb hbidx
        have hbw := huniq b hb hbidx
        refine hp ?_
        rw [← hbw]
        exact hlp b hb
      rw [hres, if_neg hp]
  have hW2 : winnersList groups m l = W.filter p := by
    have hWf : W.filter p = groups.filterMap
        (fun g => ((groupScan attrs g.indices (-1) none).map (mkWinner m)).bind
          (fun b => if p b then some b else none)) := by
      rw [hW, winnersList, filter_filterMap]
    rw [hWf, winnersList]
    refine List.filterMap_congr ?_
    intro g hg
    cases hscan : groupScan attrs g.indices (-1) none with
    | none =>
      rw [hscan2none g hg hscan]
      rfl
    | some a =>
      rw [hscan2some g hg a hscan]
      by_cases hp : p (mkWinner m a) = true
      · rw [if_pos hp]
        simp [mkWinner_idem, hp]
      · rw [if_neg hp]
        simp [hp]
  have hl2 : l = W.filter p ++ U.filter p := by
    rw [hl, List.filter_append]
  have hU2 : (l.filter
      (fun a => decide (∀ g ∈ groups, a.index ∉ g.indices))).map
      (mkUngrouped m) = U.filter p := by
    have h1 : (W.filter p).filter
        (fun a => decide (∀ g ∈ groups, a.index ∉ g.indices)) = [] := by
      rw [List.filter_eq_nil_iff]
      intro w hw hq'
      obtain ⟨g, hg, a, -, hidx, -, rfl⟩ := hWel w (List.mem_of_mem_filter hw)
      have hall := of_decide_eq_true hq'
      refine hall g hg ?_
      rw [mkWinner_index]
      exact hidx
    have h2 : (U.filter p).filter
        (fun a => decide (∀ g ∈ groups, a.index ∉ g.indices)) = U.filter p := by
      rw [List.filter_eq_self]
      intro u hu
      obtain ⟨b, -, rfl, hbq⟩ := hUel u (List.mem_of_mem_filter hu)
      refine decide_eq_true ?_
      intro g hg
      rw [mkUngrouped_index]
      exact hbq g hg
    have h3 : l.filter (fun a => decide (∀ g ∈ groups, a.index ∉ g.indices))
        = U.filter p := by
      rw [hl2, List.filter_append, h1, h2, List.nil_append]
    rw [h3]
    have hid : ∀ u ∈ U.filter p, mkUngrouped m u = u := by
      intro u hu
      obtain ⟨b, -, rfl, -⟩ := hUel u (List.mem_of_mem_filter hu)
      exact mkUngrouped_idem m b
    calc (U.filter p).map (mkUngrouped m)
        = (U.filter p).map id := List.map_eq_map_iff.mpr hid
      _ = U.filter p := List.map_id _
  rw [getDominantAttributes_eq, usedOf_filter_eq groups l hlnd hlpos,
    hW2, hU2]
  exact hl2.symm

lemma attributeGroups_pairwise_disjoint :
    attributeGroups.Pairwise (fun g₁ g₂ => ∀ i ∈ g₁.indices, i ∉ g₂.indices) := by
  decide

/-- **C6.** The display filter is idempotent: for every observation sequence
with at most one observation per index and nonnegative probabilities, and
for every fixed setting of the two switches, applying the filter to its own
output returns exactly the output of applying it once. -/
theorem display_filter_idempotent
    (d h : Bool) (attrs : List Attribute)
    (hnd : (attrs.map Attribute.index).Nodup)
    (hpos : ∀ a ∈ attrs, 0 ≤ a.probability) :
    getFilteredAttributes d h (getFilteredAttributes d h attrs) =
      getFilteredAttributes d h attrs := by
  cases d <;> cases h
  · rfl
  · show (attrs.filter (fun a => decide (mkRat 1 2 < a.probability))).filter
        (fun a => decide (mkRat 1 2 < a.probability)) =
      attrs.filter (fun a => decide (mkRat 1 2 < a.probability))
    rw [List.filter_filter]
    exact List.filter_congr (fun a _ => Bool.and_self _)
  · show getDominantAttributes attributeGroups displayMapping
        (getDominantAttributes attributeGroups displayMapping attrs) =
      getDominantAttributes attributeGroups displayMapping attrs
    have hfix := getDominant_filter_fixpoint attributeGroups displayMapping
      attrs (fun _ => true) attributeGroups_pairwise_disjoint hnd hpos
    rw [List.filter_true] at hfix
    exact hfix
  · show (getDominantAttributes attributeGroups displayMapping
        ((getDominantAttributes attributeGroups displayMapping attrs).filter
          (fun a => decide (mkRat 1 2 < a.probability)))).filter
        (fun a => decide (mkRat 1 2 < a.probability)) =
      (getDominantAttributes attributeGroups displayMapping attrs).filter
        (fun a => decide (mkRat 1 2 < a.probability))
    rw [getDominant_filter_fixpoint attributeGroups displayMapping attrs
      (fun a => decide (mkRat 1 2 < a.probability))
      attributeGroups_pairwise_disjoint hnd hpos]
    rw [List.filter_filter]
    exact List.filter_congr (fun a _ => Bool.and_self _)

/-- Concrete input for the C6 witness: a high-confidence gender observation
and a low-confidence hair-colour observation. -/
def c6WitnessAttrs : List Attribute :=
  [⟨some "a man", mkRat 9 10, 2, 0, none⟩,
   ⟨some "a person with blond hair", mkRat 3 10, 1, 4, none⟩]

/-- Witness: the C6 theorem applied at a concrete input with both switches
set, the hypotheses discharged by evaluation. -/
theorem display_filter_idempotent_witness :
    ((c6WitnessAttrs.map Attribute.index).Nodup ∧
      (∀ a ∈ c6WitnessAttrs, 0 ≤ a.probability)) ∧
    getFilteredAttributes true true
        (getFilteredAttributes true true c6WitnessAttrs) =
      getFilteredAttributes true true c6WitnessAttrs :=
  ⟨⟨by decide, by decide⟩,
    display_filter_idempotent true true c6WitnessAttrs (by decide) (by decide)⟩

end FaceAI
